import Mathlib

/-!
Shallow embedding of the `unity` dimensional-analysis library
(`src/unity/db.py`, `src/unity/core.py`, `src/unity/quantity.py`).

Numeric payloads are modelled as rationals (`ℚ`): every scale factor in the
unit database is a finite decimal, so all the concrete computations of the
spec are exact in `ℚ`.  Strings are Lean `String`s; tokenization, the
`^([a-zA-Z]+)([-+]?\d+)?$` token grammar, Python's `str.split()` /
`str.strip()` and integer rendering are modelled character-list by
character-list.
-/

namespace Unity

/-- Base dimension exponent vector.  The unit database only ever uses the
three base dimensions `M`, `L`, `T`, so a Python dims-dictionary (with zero
entries dropped) is represented by this triple; two dictionaries are equal
iff the triples are. -/
structure Dims where
  M : Int
  L : Int
  T : Int
deriving DecidableEq, Repr

/-- One entry of `UNIT_DB` in `db.py`: a scale relative to the SI-like base
system and a dimension vector. -/
structure UnitDef where
  scale : ℚ
  dims : Dims
deriving DecidableEq, Repr

/-- The `UNIT_DB` dict literal of `db.py`, in source order.  Note the key
`"g"` occurs twice: once as gram (mass) and later as standard gravity
(acceleration); Python dict literals keep the last occurrence. -/
def UNIT_DB_entries : List (String × UnitDef) := [
  -- Mass (Base: kg)
  ("kg", ⟨1, ⟨1, 0, 0⟩⟩),
  ("g", ⟨1/1000, ⟨1, 0, 0⟩⟩),
  ("mg", ⟨1/1000000, ⟨1, 0, 0⟩⟩),
  ("t", ⟨1000, ⟨1, 0, 0⟩⟩),
  -- Imperial Mass
  ("lb", ⟨453592/1000000, ⟨1, 0, 0⟩⟩),
  ("oz", ⟨283495/10000000, ⟨1, 0, 0⟩⟩),
  ("tn", ⟨907185/1000, ⟨1, 0, 0⟩⟩),
  ("LT", ⟨101605/100, ⟨1, 0, 0⟩⟩),
  -- Length (Base: m)
  ("m", ⟨1, ⟨0, 1, 0⟩⟩),
  ("mm", ⟨1/1000, ⟨0, 1, 0⟩⟩),
  ("cm", ⟨1/100, ⟨0, 1, 0⟩⟩),
  ("km", ⟨1000, ⟨0, 1, 0⟩⟩),
  -- Imperial Length
  ("in", ⟨254/10000, ⟨0, 1, 0⟩⟩),
  ("ft", ⟨3048/10000, ⟨0, 1, 0⟩⟩),
  ("yd", ⟨9144/10000, ⟨0, 1, 0⟩⟩),
  ("mi", ⟨160934/100, ⟨0, 1, 0⟩⟩),
  -- Time (Base: s)
  ("s", ⟨1, ⟨0, 0, 1⟩⟩),
  ("min", ⟨60, ⟨0, 0, 1⟩⟩),
  ("h", ⟨3600, ⟨0, 0, 1⟩⟩),
  ("d", ⟨86400, ⟨0, 0, 1⟩⟩),
  ("y", ⟨31536000, ⟨0, 0, 1⟩⟩),
  -- Frequency (Base: Hz)
  ("Hz", ⟨1, ⟨0, 0, -1⟩⟩),
  ("kHz", ⟨1000, ⟨0, 0, -1⟩⟩),
  ("MHz", ⟨1000000, ⟨0, 0, -1⟩⟩),
  ("GHz", ⟨1000000000, ⟨0, 0, -1⟩⟩),
  ("THz", ⟨1000000000000, ⟨0, 0, -1⟩⟩),
  ("PHz", ⟨1000000000000000, ⟨0, 0, -1⟩⟩),
  ("EHz", ⟨1000000000000000000, ⟨0, 0, -1⟩⟩),
  ("ZHz", ⟨1000000000000000000000, ⟨0, 0, -1⟩⟩),
  -- Force: N = kg * m / s^2
  ("N", ⟨1, ⟨1, 1, -2⟩⟩),
  ("kN", ⟨1000, ⟨1, 1, -2⟩⟩),
  ("lbf", ⟨444822/100000, ⟨1, 1, -2⟩⟩),
  -- Pressure: Pa = N / m^2
  ("Pa", ⟨1, ⟨1, -1, -2⟩⟩),
  ("kPa", ⟨1000, ⟨1, -1, -2⟩⟩),
  ("psi", ⟨689476/100, ⟨1, -1, -2⟩⟩),
  -- Volume
  ("L", ⟨1/1000, ⟨0, 3, 0⟩⟩),
  ("mL", ⟨1/1000000, ⟨0, 3, 0⟩⟩),
  ("gal", ⟨378541/100000000, ⟨0, 3, 0⟩⟩),
  -- Acceleration: standard gravity, re-using the key "g"
  ("g", ⟨980665/100000, ⟨0, 1, -2⟩⟩),
  -- Energy/Work
  ("J", ⟨1, ⟨1, 2, -2⟩⟩),
  ("kJ", ⟨1000, ⟨1, 2, -2⟩⟩),
  ("MJ", ⟨1000000, ⟨1, 2, -2⟩⟩),
  ("ft_lbf", ⟨135582/100000, ⟨1, 2, -2⟩⟩),
  ("Btu", ⟨105506/100, ⟨1, 2, -2⟩⟩),
  -- Power
  ("W", ⟨1, ⟨1, 2, -3⟩⟩),
  ("kW", ⟨1000, ⟨1, 2, -3⟩⟩),
  ("MW", ⟨1000000, ⟨1, 2, -3⟩⟩),
  ("hp", ⟨7457/10, ⟨1, 2, -3⟩⟩)]

/-- Lookup in `UNIT_DB`.  A Python dict literal binds duplicate keys to the
last occurrence, hence the left fold that lets later entries shadow earlier
ones. -/
def UNIT_DB (sym : String) : Option UnitDef :=
  UNIT_DB_entries.foldl (fun acc e => if e.1 = sym then some e.2 else acc) none

/-- Error kinds of the library (all raised as `ValueError` / `TypeError` /
`IndexError` in Python; the spec's taxonomy distinguishes the kinds). -/
inductive UnityError where
  | invalidToken
  | unknownUnit
  | incompatibleUnits
  | shapeMismatch
  | unsupportedOperation
  | indexError
  | zeroStep
deriving DecidableEq, Repr

deriving instance DecidableEq for Except

/-- Fuel-indexed worker for `wordsCh` (structural recursion so that the
kernel can evaluate it). -/
def wordsChAux : Nat → List Char → List (List Char)
  | 0, _ => []
  | _ + 1, [] => []
  | fuel + 1, c :: cs =>
    if c.isWhitespace then wordsChAux fuel cs
    else (c :: cs.takeWhile (fun x => !x.isWhitespace)) ::
      wordsChAux fuel (cs.dropWhile (fun x => !x.isWhitespace))

/-- `unit_str.strip().split()` / `str.split()`: split a character list into
maximal runs of non-whitespace characters. -/
def wordsCh (l : List Char) : List (List Char) :=
  wordsChAux l.length l

/-- `str.strip()`: drop whitespace from both ends. -/
def stripCh (l : List Char) : List Char :=
  ((l.dropWhile Char.isWhitespace).reverse.dropWhile Char.isWhitespace).reverse

/-- `f"{a} {b}".strip()` on strings. -/
def pyStrip (s : String) : String := ⟨stripCh s.data⟩

/-- All-decimal-digit word to its numeric value (`int()` on a digit run). -/
def parseDigits (l : List Char) : Option Nat :=
  match l with
  | [] => none
  | _ =>
    if l.all (·.isDigit) then
      some (l.foldl (fun a c => a * 10 + (c.toNat - 48)) 0)
    else none

/-- `int()` on a `[-+]?\d+` word. -/
def parseSignedInt (l : List Char) : Option Int :=
  match l with
  | [] => none
  | c :: ds =>
    if c = '-' then (parseDigits ds).map (fun n => -(n : Int))
    else if c = '+' then (parseDigits ds).map (fun n => (n : Int))
    else (parseDigits l).map (fun n => (n : Int))

/-- The token regex `^([a-zA-Z]+)([-+]?\d+)?$` together with
`int(exponent_str) if exponent_str else 1`: a token is a nonempty alphabetic
symbol followed by an optional signed integer exponent consuming all the
rest. -/
def matchToken (t : List Char) : Option (String × Int) :=
  let sym := t.takeWhile Char.isAlpha
  let rest := t.dropWhile Char.isAlpha
  if sym.isEmpty then none
  else if rest.isEmpty then some (⟨sym⟩, 1)
  else (parseSignedInt rest).map (fun e => (⟨sym⟩, e))

/-- Canonical form of a unit: total scale and dimension-exponent vector
(`CanonicalUnit` in `core.py`; zero exponents are dropped, which the `Dims`
triple represents implicitly). -/
structure CanonicalUnit where
  scale : ℚ
  dims : Dims
deriving DecidableEq, Repr

/-- The token-folding loop of `parse_unit`: left-to-right over the
whitespace-separated words, accumulating scale product and dimension sums,
raising `InvalidToken` / `UnknownUnit` per token in source order.  The
scale arithmetic is exact rational here; CPython performs it in `float`,
where `scale ** exponent` raises `OverflowError` once the exact value
passes the largest finite double — an error path outside this fold's
`Except` (see `maxDouble` / `powOverflows`). -/
def parseLoop : List (List Char) → ℚ → Dims → Except UnityError CanonicalUnit
  | [], sc, d => .ok ⟨sc, d⟩
  | t :: ts, sc, d =>
    match matchToken t with
    | none => .error .invalidToken
    | some (name, e) =>
      match UNIT_DB name with
      | none => .error .unknownUnit
      | some ud =>
        parseLoop ts (sc * ud.scale ^ e)
          ⟨d.M + ud.dims.M * e, d.L + ud.dims.L * e, d.T + ud.dims.T * e⟩

/-- `parse_unit` of `core.py`. -/
def parse_unit (s : String) : Except UnityError CanonicalUnit :=
  parseLoop (wordsCh s.data) 1 ⟨0, 0, 0⟩

/-- `conv` of `core.py` on a scalar value. -/
def conv (value : ℚ) (from_unit to_unit : String) : Except UnityError ℚ := do
  let c_from ← parse_unit from_unit
  let c_to ← parse_unit to_unit
  if c_from.dims = c_to.dims then
    .ok (value * (c_from.scale / c_to.scale))
  else .error .incompatibleUnits

/-- `valid` of `core.py`: parse both, compare dimension maps, catch every
parse error into `false`. -/
def valid (from_unit to_unit : String) : Bool :=
  match parse_unit from_unit, parse_unit to_unit with
  | .ok c_from, .ok c_to => c_from.dims = c_to.dims
  | _, _ => false

/-- Decimal digit character (`str` rendering of one digit value). -/
def digChar (d : Nat) : Char :=
  match d with
  | 0 => '0' | 1 => '1' | 2 => '2' | 3 => '3' | 4 => '4'
  | 5 => '5' | 6 => '6' | 7 => '7' | 8 => '8' | _ => '9'

/-- Fuel-indexed worker for `natChars` (structural recursion so that the
kernel can evaluate it). -/
def natCharsAux : Nat → Nat → List Char
  | 0, _ => []
  | fuel + 1, n =>
    if n < 10 then [digChar n]
    else natCharsAux fuel (n / 10) ++ [digChar (n % 10)]

/-- Python `str(n)` for a natural number. -/
def natChars (n : Nat) : List Char := natCharsAux (n + 1) n

/-- Python `str(e)` for an integer (as interpolated by the f-strings in
`invert_unit`). -/
def intChars (e : Int) : List Char :=
  if e < 0 then '-' :: natChars e.natAbs else natChars e.toNat

/-- The per-token body of `invert_unit`: re-match the token, negate the
exponent, render `f"{name}"` when the negated exponent is 1 and
`f"{name}{new_exponent}"` otherwise. -/
def invertTok (t : List Char) : Except UnityError (List Char) :=
  match matchToken t with
  | none => .error .invalidToken
  | some (name, e) =>
    .ok (name.data ++ (if -e = 1 then [] else intChars (-e)))

/-- `" ".join(tokens)`. -/
def joinSpace (ts : List (List Char)) : List Char :=
  match ts with
  | [] => []
  | t :: rest => t ++ (rest.map (fun w => ' ' :: w)).flatten

/-- `invert_unit` of `core.py`. -/
def invert_unit (s : String) : Except UnityError String :=
  ((wordsCh s.data).mapM invertTok).map (fun ts => ⟨joinSpace ts⟩)

/-- The `(symbol, exponent)` token list of a unit expression, when every
word matches the token grammar (exponent defaulted to 1 when omitted). -/
def tokensOf (s : String) : Option (List (String × Int)) :=
  (wordsCh s.data).mapM matchToken

/-- Numeric payload of a `Quantity`: either a scalar (`float`) or an
N-dimensional array (`np.ndarray`, modelled as a row-major shape together
with the flattened data). -/
inductive Value where
  | scalar (x : ℚ)
  | arr (shape : List Nat) (data : List ℚ)
deriving DecidableEq, Repr

/-- numpy broadcasting of one aligned dimension pair: equal, or one of the
two is 1 (in which case the other wins). -/
def broadcastDim : Nat → Nat → Option Nat
  | 1, m => some m
  | n, 1 => some n
  | n, m => if n = m then some n else none

/-- numpy two-operand shape broadcasting: pad the shorter shape with 1s on
the left (align from the trailing dimension) and combine the aligned pairs;
`none` when the shapes cannot broadcast. -/
def broadcastShape (s1 s2 : List Nat) : Option (List Nat) :=
  let r := max s1.length s2.length
  let p1 := List.replicate (r - s1.length) 1 ++ s1
  let p2 := List.replicate (r - s2.length) 1 ++ s2
  (p1.zip p2).mapM (fun pr => broadcastDim pr.1 pr.2)

/-- All multi-indices of a shape, in row-major order. -/
def allIdx : List Nat → List (List Nat)
  | [] => [[]]
  | n :: rest => (List.range n).flatMap (fun i => (allIdx rest).map (fun idx => i :: idx))

/-- Row-major flat position of a multi-index in a shape. -/
def flatIndex (shape idx : List Nat) : Nat :=
  (shape.zip idx).foldl (fun acc p => acc * p.1 + p.2) 0

/-- Read an operand element at a multi-index of the broadcast result shape:
drop the leading coordinates the operand lacks, clamp coordinates of
broadcast (size-1) dimensions to 0, and read the flattened data. -/
def readAt (shape : List Nat) (data : List ℚ) (rank : Nat) (idx : List Nat) : ℚ :=
  let idx' := idx.drop (rank - shape.length)
  let idx'' := (idx'.zip shape).map (fun p => if p.2 = 1 then 0 else p.1)
  data.getD (flatIndex shape idx'') 0

/-- numpy's element-wise combination of two operands under broadcasting
(the semantics of `self.value ⊕ other_value` in `quantity.py`); a
non-broadcastable pair of array shapes raises, which the spec calls
`ShapeMismatch`. -/
def broadcastOp (f : ℚ → ℚ → ℚ) : Value → Value → Except UnityError Value
  | .scalar x, .scalar y => .ok (.scalar (f x y))
  | .scalar x, .arr s d => .ok (.arr s (d.map (fun y => f x y)))
  | .arr s d, .scalar y => .ok (.arr s (d.map (fun x => f x y)))
  | .arr s1 d1, .arr s2 d2 =>
    match broadcastShape s1 s2 with
    | none => .error .shapeMismatch
    | some s =>
      .ok (.arr s ((allIdx s).map (fun idx =>
        f (readAt s1 d1 s.length idx) (readAt s2 d2 s.length idx))))

/-- `value * factor` for scalar or array value (numpy scalar multiply
broadcasts over every element). -/
def Value.scaleBy (v : Value) (k : ℚ) : Value :=
  match v with
  | .scalar x => .scalar (x * k)
  | .arr s d => .arr s (d.map (fun x => x * k))

/-- `conv` of `core.py` applied to a scalar-or-array value (the same
source function; Python dispatches the `value * factor` multiply through
numpy). -/
def convV (v : Value) (from_unit to_unit : String) : Except UnityError Value := do
  let c_from ← parse_unit from_unit
  let c_to ← parse_unit to_unit
  if c_from.dims = c_to.dims then
    .ok (v.scaleBy (c_from.scale / c_to.scale))
  else .error .incompatibleUnits

/-- `Quantity` of `quantity.py`: a scalar-or-array value paired with the
literal unit string. -/
structure Quantity where
  value : Value
  unit : String
deriving DecidableEq, Repr

/-- `Quantity.__add__` (Quantity operand): compatibility check, conversion
of the right operand into the left unit, numpy element-wise addition with
broadcasting, left operand's unit kept. -/
def Quantity.add (p q : Quantity) : Except UnityError Quantity :=
  if valid p.unit q.unit then do
    let oc ← convV q.value q.unit p.unit
    let r ← broadcastOp (fun a b => a + b) p.value oc
    .ok ⟨r, p.unit⟩
  else .error .incompatibleUnits

/-- `Quantity.__sub__` (Quantity operand). -/
def Quantity.sub (p q : Quantity) : Except UnityError Quantity :=
  if valid p.unit q.unit then do
    let oc ← convV q.value q.unit p.unit
    let r ← broadcastOp (fun a b => a - b) p.value oc
    .ok ⟨r, p.unit⟩
  else .error .incompatibleUnits

/-- `Quantity.__mul__` with a Quantity operand: element-wise product with
broadcasting, unit `f"{self.unit} {other.unit}".strip()`. -/
def Quantity.mulQ (p q : Quantity) : Except UnityError Quantity := do
  let v ← broadcastOp (fun a b => a * b) p.value q.value
  .ok ⟨v, pyStrip (p.unit ++ " " ++ q.unit)⟩

/-- `Quantity.__truediv__` with a Quantity operand: element-wise quotient
with broadcasting, unit `f"{self.unit} {invert_unit(other.unit)}".strip()`.
(Division is modelled as exact division on `ℚ`.) -/
def Quantity.divQ (p q : Quantity) : Except UnityError Quantity := do
  let v ← broadcastOp (fun a b => a / b) p.value q.value
  let inv ← invert_unit q.unit
  .ok ⟨v, pyStrip (p.unit ++ " " ++ inv)⟩

/-- Index argument of `Quantity.__getitem__`: an integer position or a
Python `start:stop:step` slice. -/
inductive Key where
  | pos (i : Int)
  | slice (start stop step : Option Int)
deriving DecidableEq, Repr

/-- CPython slice-index adjustment for the start bound (`PySlice_AdjustIndices`). -/
def adjustStart (start? : Option Int) (step : Int) (L : Nat) : Int :=
  match start? with
  | none => if step < 0 then (L : Int) - 1 else 0
  | some i =>
    let i' := if i < 0 then i + L else i
    if i' < 0 then (if step < 0 then -1 else 0)
    else if i' ≥ L then (if step < 0 then (L : Int) - 1 else L)
    else i'

/-- CPython slice-index adjustment for the stop bound. -/
def adjustStop (stop? : Option Int) (step : Int) (L : Nat) : Int :=
  match stop? with
  | none => if step < 0 then -1 else (L : Int)
  | some i =>
    let i' := if i < 0 then i + L else i
    if i' < 0 then (if step < 0 then -1 else 0)
    else if i' ≥ L then (if step < 0 then (L : Int) - 1 else L)
    else i'

/-- Number of positions a slice selects after bound adjustment. -/
def sliceLen (start stop step : Int) : Nat :=
  if 0 < step then
    (if start < stop then ((stop - start - 1) / step).toNat + 1 else 0)
  else
    (if stop < start then ((start - stop - 1) / (-step)).toNat + 1 else 0)

/-- The positions a `start:stop:step` slice selects on an axis of length
`L`, in traversal order (exactly Python's slice semantics; step 0 raises). -/
def sliceIdx (start? stop? step? : Option Int) (L : Nat) : Except UnityError (List Int) :=
  let step := step?.getD 1
  if step = 0 then .error .zeroStep
  else
    let a := adjustStart start? step L
    let b := adjustStop stop? step L
    .ok ((List.range (sliceLen a b step)).map (fun k : Nat => a + step * (k : Int)))

/-- `Quantity.__getitem__` on the value: scalar values raise (spec kind
`UnsupportedOperation`); an integer indexes the first axis (negative =
from the end, out of range raises `IndexError`), a 0-dim result is turned
back into a scalar; a slice selects along the first axis. -/
def Value.getitem : Value → Key → Except UnityError Value
  | .scalar _, _ => .error .unsupportedOperation
  | .arr [] _, _ => .error .indexError
  | .arr (n :: rest) data, .pos i =>
    let i' := if i < 0 then i + n else i
    if 0 ≤ i' ∧ i' < n then
      let rs := rest.prod
      let seg := (data.drop (i'.toNat * rs)).take rs
      if rest.isEmpty then .ok (.scalar (seg.headD 0)) else .ok (.arr rest seg)
    else .error .indexError
  | .arr (n :: rest) data, .slice a b c =>
    (sliceIdx a b c n).map (fun ids =>
      let rs := rest.prod
      .arr (ids.length :: rest)
        ((ids.map (fun i => (data.drop (i.toNat * rs)).take rs)).flatten))

/-- `Quantity.__getitem__`: index the value, keep the unit. -/
def Quantity.getitem (q : Quantity) (k : Key) : Except UnityError Quantity :=
  (q.value.getitem k).map (fun v => ⟨v, q.unit⟩)

/-- The per-element format-string choice of `Quantity.format`
(`get_format_string` in `quantity.py`); `\x7b`/`\x7d` stand for the literal
braces of the Python format strings. -/
def get_format_string (num_format : String) (val : ℚ) : String :=
  if num_format ≠ "" then "\x7b:" ++ num_format ++ "\x7d"
  else
    let abs_val := |val|
    if abs_val = 0 then "\x7b:.0f\x7d"
    else if abs_val < 1/10 ∨ abs_val > 99999/10 then "\x7b:.2E\x7d"
    else if abs_val < 10 then "\x7b:.3f\x7d"
    else if abs_val < 100 then "\x7b:.2f\x7d"
    else if abs_val < 1000 then "\x7b:.1f\x7d"
    else "\x7b:.0f\x7d"

/-- The format strings `Quantity.format` selects: one per flattened array
element, and a single one for a scalar. -/
def formatStrings (q : Quantity) (num_format : String) : List String :=
  match q.value with
  | .scalar x => [get_format_string num_format x]
  | .arr _ d => d.map (get_format_string num_format)

/-- Scale of a unit symbol in the table (1 for an unknown symbol; only used
under a known-symbol hypothesis). -/
def dbScale (sym : String) : ℚ :=
  match UNIT_DB sym with
  | some d => d.scale
  | none => 1

/-- Dimension vector of a unit symbol in the table. -/
def dbDims (sym : String) : Dims :=
  match UNIT_DB sym with
  | some d => d.dims
  | none => ⟨0, 0, 0⟩

/-- `Π def[sym].scale ^ exponent` over a token list. -/
def tsScale (ts : List (String × Int)) : ℚ :=
  (ts.map (fun p => dbScale p.1 ^ p.2)).prod

/-- `Σ def[sym].dims[d] * exponent` over a token list, per dimension. -/
def tsDims (ts : List (String × Int)) : Dims :=
  ⟨(ts.map (fun p => (dbDims p.1).M * p.2)).sum,
   (ts.map (fun p => (dbDims p.1).L * p.2)).sum,
   (ts.map (fun p => (dbDims p.1).T * p.2)).sum⟩

/-- The text `invert_unit` emits for one token of symbol `name` and
exponent `e`: the symbol, followed by the rendered exponent unless it is 1. -/
def renderTok (name : String) (e : Int) : List Char :=
  name.data ++ (if e = 1 then [] else intChars e)

/-- The largest finite IEEE-754 double, `2^1024 - 2^971`, as an exact
rational (≈ 1.7977e308).  CPython holds every scale as a `float`. -/
def maxDouble : ℚ := 2 ^ 1024 - 2 ^ 971

/-- Marks a `(symbol, exponent)` token whose exact `scale ** exponent`
exceeds the largest finite double.  CPython evaluates this power in
floating point inside `parse_unit` (`core.py:49`) and raises
`OverflowError` on such a token; `OverflowError` is not a `ValueError`,
so the `except ValueError` in `valid` (`core.py:83`) does not catch it and
`valid` raises instead of returning a Boolean.  The exact-rational model
itself cannot overflow; this predicate marks the inputs where the real
program leaves the model. -/
def powOverflows (sym : String) (e : Int) : Bool :=
  maxDouble < |dbScale sym ^ e|

/-! ## Theorems -/

theorem length_dropWhile_le {α : Type} (p : α → Bool) (l : List α) :
    (l.dropWhile p).length ≤ l.length := by
  induction l with
  | nil => simp
  | cons a l ih =>
    rw [List.dropWhile_cons]
    split
    · simp; omega
    · simp

theorem wordsChAux_congr : ∀ (fuel fuel' : Nat) (l : List Char),
    l.length ≤ fuel → l.length ≤ fuel' → wordsChAux fuel l = wordsChAux fuel' l := by
  intro fuel
  induction fuel with
  | zero =>
    intro fuel' l h _
    have : l = [] := List.length_eq_zero.mp (Nat.le_zero.mp h)
    subst this
    cases fuel' <;> rfl
  | succ fuel ih =>
    intro fuel' l h h'
    cases l with
    | nil => cases fuel' <;> rfl
    | cons c cs =>
      cases fuel' with
      | zero => simp at h'
      | succ fuel' =>
        simp only [List.length_cons, Nat.succ_le_succ_iff] at h h'
        simp only [wordsChAux]
        by_cases hw : c.isWhitespace = true
        · rw [if_pos hw, if_pos hw]
          exact ih fuel' cs h h'
        · have hd := length_dropWhile_le (fun x => !x.isWhitespace) cs
          rw [if_neg hw, if_neg hw, ih fuel' _ (le_trans hd h) (le_trans hd h')]

theorem wordsCh_nil : wordsCh [] = [] := rfl

theorem wordsCh_cons_ws {c : Char} (cs : List Char) (h : c.isWhitespace = true) :
    wordsCh (c :: cs) = wordsCh cs := by
  simp only [wordsCh, List.length_cons, wordsChAux, if_pos h]

theorem wordsCh_cons_nws {c : Char} (cs : List Char) (h : c.isWhitespace = false) :
    wordsCh (c :: cs) = (c :: cs.takeWhile (fun x => !x.isWhitespace)) ::
      wordsCh (cs.dropWhile (fun x => !x.isWhitespace)) := by
  have h' : ¬ (c.isWhitespace = true) := by simp [h]
  simp only [wordsCh, List.length_cons, wordsChAux, if_neg h']
  exact congrArg (fun x => _ :: x)
    (wordsChAux_congr _ _ _ (length_dropWhile_le _ cs) le_rfl)

theorem bind_ok {ε α β : Type} (a : α) (f : α → Except ε β) :
    (Except.ok a : Except ε α) >>= f = f a := rfl

theorem bind_error {ε α β : Type} (e : ε) (f : α → Except ε β) :
    (Except.error e : Except ε α) >>= f = .error e := rfl

theorem map_ok {ε α β : Type} (a : α) (f : α → β) :
    Except.map f (Except.ok a : Except ε α) = .ok (f a) := rfl

theorem map_error {ε α β : Type} (e : ε) (f : α → β) :
    Except.map f (Except.error e : Except ε α) = .error e := rfl

theorem parseLoop_ok_of_tokens :
    ∀ (ws : List (List Char)) (ts : List (String × Int)) (sc : ℚ) (d : Dims),
    ws.mapM matchToken = some ts → (∀ p ∈ ts, (UNIT_DB p.1).isSome) →
    parseLoop ws sc d = .ok ⟨sc * tsScale ts,
      ⟨d.M + (tsDims ts).M, d.L + (tsDims ts).L, d.T + (tsDims ts).T⟩⟩ := by
  intro ws
  induction ws with
  | nil =>
    intro ts sc d h _
    simp only [List.mapM_nil, Option.pure_def, Option.some.injEq] at h
    subst h
    simp [parseLoop, tsScale, tsDims]
  | cons w rest ih =>
    intro ts sc d h hk
    rw [List.mapM_cons] at h
    rcases hm : matchToken w with _ | p
    · rw [hm] at h; simp at h
    · rw [hm] at h
      rcases hr : rest.mapM matchToken with _ | ps
      · rw [hr] at h; simp at h
      · rw [hr] at h
        simp at h
        subst h
        have hks : (UNIT_DB p.1).isSome := hk p (by simp)
        rcases hdb : UNIT_DB p.1 with _ | ud
        · rw [hdb] at hks; simp at hks
        · simp only [parseLoop, hm, hdb]
          rw [ih ps _ _ hr (fun q hq => hk q (by simp [hq]))]
          have hsc : dbScale p.1 = ud.scale := by simp [dbScale, hdb]
          have hdd : dbDims p.1 = ud.dims := by simp [dbDims, hdb]
          simp only [Except.ok.injEq, CanonicalUnit.mk.injEq, Dims.mk.injEq]
          refine ⟨?_, ?_, ?_, ?_⟩
          · simp only [tsScale, List.map_cons, List.prod_cons, hsc]; ring
          · simp only [tsDims, List.map_cons, List.sum_cons, hdd]; ring
          · simp only [tsDims, List.map_cons, List.sum_cons, hdd]; ring
          · simp only [tsDims, List.map_cons, List.sum_cons, hdd]; ring

/-- Successful parses are exactly the fold of the claim: scale is the
product of table scales raised to the token exponents, each dimension
exponent the corresponding sum. -/
theorem parse_unit_eq_of_tokens (u : String) (ts : List (String × Int))
    (h : tokensOf u = some ts) (hk : ∀ p ∈ ts, (UNIT_DB p.1).isSome) :
    parse_unit u = .ok ⟨tsScale ts, tsDims ts⟩ := by
  have := parseLoop_ok_of_tokens (wordsCh u.data) ts 1 ⟨0, 0, 0⟩ h hk
  simpa [parse_unit] using this

theorem parseLoop_ok_tokens_exist :
    ∀ (ws : List (List Char)) (sc : ℚ) (d : Dims) (c : CanonicalUnit),
    parseLoop ws sc d = .ok c →
    ∃ ts, ws.mapM matchToken = some ts ∧ ∀ p ∈ ts, (UNIT_DB p.1).isSome := by
  intro ws
  induction ws with
  | nil => intro sc d c _; exact ⟨[], rfl, by simp⟩
  | cons w rest ih =>
    intro sc d c h
    rcases hm : matchToken w with _ | p
    · simp [parseLoop, hm] at h
    · rcases hdb : UNIT_DB p.1 with _ | ud
      · rcases p with ⟨name, e⟩
        simp [parseLoop, hm, hdb] at h
      · rcases p with ⟨name, e⟩
        simp only [parseLoop, hm, hdb] at h
        rcases ih _ _ _ h with ⟨ts, hts, hkts⟩
        refine ⟨(name, e) :: ts, ?_, ?_⟩
        · rw [List.mapM_cons, hm, hts]; rfl
        · intro q hq
          rcases List.mem_cons.mp hq with hq | hq
          · subst hq; simp [hdb]
          · exact hkts q hq

/-- A successful parse determines a token list of known symbols. -/
theorem parse_unit_tokens_exist (u : String) (c : CanonicalUnit)
    (h : parse_unit u = .ok c) :
    ∃ ts, tokensOf u = some ts ∧ ∀ p ∈ ts, (UNIT_DB p.1).isSome :=
  parseLoop_ok_tokens_exist (wordsCh u.data) 1 ⟨0, 0, 0⟩ c h

theorem string_ext {s t : String} (h : s.data = t.data) : s = t := by
  cases s; cases t; cases h; rfl

theorem alpha_not_ws {c : Char} (h : c.isAlpha = true) : c.isWhitespace = false := by
  cases hw : c.isWhitespace
  · rfl
  · exfalso
    have hmem : ((c = ' ' ∨ c = '\t') ∨ c = '\r') ∨ c = '\n' := by
      simpa [Char.isWhitespace] using hw
    rcases hmem with ((h1 | h1) | h1) | h1 <;> subst h1 <;> simp at h

theorem digChar_mem (d : Nat) :
    digChar d ∈ ['0', '1', '2', '3', '4', '5', '6', '7', '8', '9'] := by
  unfold digChar
  rcases d with _ | _ | _ | _ | _ | _ | _ | _ | _ | d <;> simp

theorem digit_char_facts {c : Char}
    (h : c ∈ ['0', '1', '2', '3', '4', '5', '6', '7', '8', '9']) :
    c.isDigit = true ∧ c.isWhitespace = false ∧ c.isAlpha = false ∧
      c ≠ '-' ∧ c ≠ '+' := by
  fin_cases h <;> refine ⟨by decide, by decide, by decide, by decide, by decide⟩

theorem digChar_toNat {d : Nat} (h : d < 10) : (digChar d).toNat = 48 + d := by
  unfold digChar
  interval_cases d <;> rfl

theorem natCharsAux_congr : ∀ (fuel fuel' n : Nat), n < fuel → n < fuel' →
    natCharsAux fuel n = natCharsAux fuel' n := by
  intro fuel
  induction fuel with
  | zero => intro fuel' n h; omega
  | succ fuel ih =>
    intro fuel' n h h'
    cases fuel' with
    | zero => omega
    | succ fuel' =>
      simp only [natCharsAux]
      by_cases h10 : n < 10
      · rw [if_pos h10, if_pos h10]
      · rw [if_neg h10, if_neg h10]
        have hd : n / 10 < n := Nat.div_lt_self (by omega) (by omega)
        rw [ih fuel' (n / 10) (by omega) (by omega)]

theorem natChars_lt10 {n : Nat} (h : n < 10) : natChars n = [digChar n] := by
  simp only [natChars, natCharsAux, if_pos h]

theorem natChars_ge10 {n : Nat} (h : 10 ≤ n) :
    natChars n = natChars (n / 10) ++ [digChar (n % 10)] := by
  have hd : n / 10 < n := Nat.div_lt_self (by omega) (by omega)
  simp only [natChars, natCharsAux]
  rw [if_neg (by omega)]
  congr 1
  exact natCharsAux_congr n (n / 10 + 1) (n / 10) (by omega) (by omega)

theorem natChars_mem (n : Nat) :
    ∀ c ∈ natChars n, c ∈ ['0', '1', '2', '3', '4', '5', '6', '7', '8', '9'] := by
  induction n using Nat.strong_induction_on with
  | _ n ih =>
    by_cases h : n < 10
    · rw [natChars_lt10 h]
      intro c hc
      simp only [List.mem_singleton] at hc
      subst hc
      exact digChar_mem n
    · rw [natChars_ge10 (by omega)]
      intro c hc
      rcases List.mem_append.mp hc with hc | hc
      · exact ih (n / 10) (Nat.div_lt_self (by omega) (by omega)) c hc
      · simp only [List.mem_singleton] at hc
        subst hc
        exact digChar_mem _

theorem natChars_ne_nil (n : Nat) : natChars n ≠ [] := by
  by_cases h : n < 10
  · rw [natChars_lt10 h]; simp
  · rw [natChars_ge10 (by omega)]; simp

theorem foldl_natChars (n : Nat) : ∀ a : Nat,
    (natChars n).foldl (fun a c => a * 10 + (c.toNat - 48)) a =
      a * 10 ^ (natChars n).length + n := by
  induction n using Nat.strong_induction_on with
  | _ n ih =>
    intro a
    by_cases h : n < 10
    · rw [natChars_lt10 h]
      simp only [List.foldl_cons, List.foldl_nil, List.length_singleton,
        digChar_toNat h, pow_one]
      omega
    · rw [natChars_ge10 (by omega)]
      have hd : n / 10 < n := Nat.div_lt_self (by omega) (by omega)
      rw [List.foldl_append, ih (n / 10) hd a]
      simp only [List.foldl_cons, List.foldl_nil, List.length_append,
        List.length_singleton, digChar_toNat (Nat.mod_lt n (by omega))]
      have hmod := Nat.div_add_mod n 10
      have hpow : 10 ^ ((natChars (n / 10)).length + 1) =
          10 ^ (natChars (n / 10)).length * 10 := pow_succ 10 _
      rw [hpow]
      ring_nf
      omega

theorem parseDigits_natChars (n : Nat) : parseDigits (natChars n) = some n := by
  rcases he : natChars n with _ | ⟨c, cs⟩
  · exact absurd he (natChars_ne_nil n)
  · have hall : (c :: cs).all (·.isDigit) = true := by
      rw [List.all_eq_true]
      intro x hx
      exact (digit_char_facts (natChars_mem n x (he ▸ hx))).1
    show parseDigits (c :: cs) = some n
    simp only [parseDigits, hall, if_true]
    rw [← he, foldl_natChars n 0]
    simp

theorem parseSignedInt_natChars (n : Nat) :
    parseSignedInt (natChars n) = some (n : Int) := by
  rcases he : natChars n with _ | ⟨c, cs⟩
  · exact absurd he (natChars_ne_nil n)
  · have hc := digit_char_facts (natChars_mem n c (he ▸ List.mem_cons_self c cs))
    show parseSignedInt (c :: cs) = some (n : Int)
    simp only [parseSignedInt, if_neg hc.2.2.2.1, if_neg hc.2.2.2.2]
    rw [← he, parseDigits_natChars]
    rfl

theorem parseSignedInt_intChars (e : Int) : parseSignedInt (intChars e) = some e := by
  by_cases h : e < 0
  · rw [intChars, if_pos h]
    simp only [parseSignedInt, if_pos rfl]
    rw [parseDigits_natChars]
    show some (-(((e.natAbs : Nat) : Int))) = some e
    congr 1
    omega
  · rw [intChars, if_neg h]
    rw [parseSignedInt_natChars]
    congr 1
    omega

theorem intChars_not_ws (e : Int) : ∀ c ∈ intChars e, c.isWhitespace = false := by
  intro c hc
  rw [intChars] at hc
  split at hc
  · rcases List.mem_cons.mp hc with h | h
    · subst h; rfl
    · exact (digit_char_facts (natChars_mem _ _ h)).2.1
  · exact (digit_char_facts (natChars_mem _ _ hc)).2.1

theorem intChars_cons (e : Int) :
    ∃ c cs, intChars e = c :: cs ∧ c.isAlpha = false := by
  rw [intChars]
  split
  · exact ⟨'-', _, rfl, rfl⟩
  · rcases he : natChars e.toNat with _ | ⟨c, cs⟩
    · exact absurd he (natChars_ne_nil _)
    · exact ⟨c, cs, rfl,
        (digit_char_facts (natChars_mem _ c (he ▸ List.mem_cons_self c cs))).2.2.1⟩

theorem all_takeWhile {α : Type} (p : α → Bool) (l : List α) :
    ∀ c ∈ l.takeWhile p, p c = true := by
  induction l with
  | nil => simp
  | cons c cs ih =>
    intro x hx
    rw [List.takeWhile_cons] at hx
    split at hx
    · rcases List.mem_cons.mp hx with h | h
      · subst h; assumption
      · exact ih x h
    · simp at hx

theorem takeWhile_append_all {α : Type} {p : α → Bool} {l r : List α}
    (h : ∀ c ∈ l, p c = true) :
    (l ++ r).takeWhile p = l ++ r.takeWhile p := by
  induction l with
  | nil => simp
  | cons c cs ih =>
    simp only [List.cons_append]
    rw [List.takeWhile_cons_of_pos (h c (by simp)),
      ih (fun x hx => h x (by simp [hx]))]

theorem dropWhile_append_all {α : Type} {p : α → Bool} {l r : List α}
    (h : ∀ c ∈ l, p c = true) :
    (l ++ r).dropWhile p = r.dropWhile p := by
  induction l with
  | nil => simp
  | cons c cs ih =>
    simp only [List.cons_append]
    rw [List.dropWhile_cons_of_pos (h c (by simp)),
      ih (fun x hx => h x (by simp [hx]))]

theorem mapM_option_forall₂ {α β : Type} (f : α → Option β) :
    ∀ (l : List α) (ts : List β),
    l.mapM f = some ts ↔ List.Forall₂ (fun a b => f a = some b) l ts := by
  intro l
  induction l with
  | nil =>
    intro ts
    constructor
    · intro h
      simp only [List.mapM_nil, Option.pure_def, Option.some.injEq] at h
      subst h
      exact List.Forall₂.nil
    · intro h
      cases h
      rfl
  | cons a l ih =>
    intro ts
    constructor
    · intro h
      rw [List.mapM_cons] at h
      rcases ha : f a with _ | b
      · rw [ha] at h; simp at h
      · rw [ha] at h
        rcases hl : l.mapM f with _ | bs
        · rw [hl] at h; simp at h
        · rw [hl] at h
          simp at h
          subst h
          exact List.Forall₂.cons ha ((ih bs).mp hl)
    · intro h
      cases h with
      | cons hab hrest =>
        rw [List.mapM_cons, hab, (ih _).mpr hrest]
        rfl

theorem mapM_except_forall₂ {α β : Type} (f : α → Except UnityError β) :
    ∀ (l : List α) (ts : List β),
    l.mapM f = .ok ts ↔ List.Forall₂ (fun a b => f a = .ok b) l ts := by
  intro l
  induction l with
  | nil =>
    intro ts
    constructor
    · intro h
      simp only [List.mapM_nil, pure, Except.pure, Except.ok.injEq] at h
      subst h
      exact List.Forall₂.nil
    · intro h
      cases h
      rfl
  | cons a l ih =>
    intro ts
    constructor
    · intro h
      rw [List.mapM_cons] at h
      rcases ha : f a with e | b
      · rw [ha] at h; simp [bind_error] at h
      · rw [ha] at h
        rw [show ((Except.ok b : Except UnityError β) >>= fun x =>
          l.mapM f >>= fun xs => pure (x :: xs)) = l.mapM f >>= fun xs =>
            pure (b :: xs) from rfl] at h
        rcases hl : l.mapM f with e | bs
        · rw [hl] at h
          exact absurd h (by simp [bind_error, pure, Except.pure])
        · rw [hl] at h
          simp only [bind_ok, pure, Except.pure, Except.ok.injEq] at h
          subst h
          exact List.Forall₂.cons ha ((ih bs).mp hl)
    · intro h
      cases h with
      | cons hab hrest =>
        rw [List.mapM_cons, hab, (ih _).mpr hrest]
        rfl

theorem matchToken_some {t : List Char} {name : String} {e : Int}
    (h : matchToken t = some (name, e)) :
    name.data = t.takeWhile Char.isAlpha ∧ name.data ≠ [] ∧
      (∀ c ∈ name.data, c.isAlpha = true) := by
  simp only [matchToken] at h
  split at h
  · exact absurd h (by simp)
  next hsym =>
    split at h
    · simp only [Option.some.injEq, Prod.mk.injEq] at h
      rcases h with ⟨hn, _⟩
      subst hn
      refine ⟨rfl, ?_, all_takeWhile _ t⟩
      intro hnil
      rw [List.isEmpty_iff] at hsym
      exact hsym hnil
    · rcases Option.map_eq_some'.mp h with ⟨a, _, hpair⟩
      rcases Prod.mk.injEq .. ▸ hpair with ⟨hn, _⟩
      subst hn
      refine ⟨rfl, ?_, all_takeWhile _ t⟩
      intro hnil
      rw [List.isEmpty_iff] at hsym
      exact hsym hnil

theorem matchToken_renderTok (name : String) (e : Int)
    (h1 : name.data ≠ []) (h2 : ∀ c ∈ name.data, c.isAlpha = true) :
    matchToken (renderTok name e) = some (name, e) := by
  by_cases he : e = 1
  · subst he
    have hr : renderTok name 1 = name.data := by simp [renderTok]
    rw [hr, matchToken]
    rw [List.takeWhile_eq_self_iff.mpr h2, List.dropWhile_eq_nil_iff.mpr h2]
    simp only [List.isEmpty_nil]
    rw [if_neg (by simpa [List.isEmpty_iff] using h1)]
    simp
  · rcases intChars_cons e with ⟨c, cs, hic, hca⟩
    simp only [renderTok, if_neg he, matchToken]
    rw [takeWhile_append_all h2, dropWhile_append_all h2, hic,
      List.takeWhile_cons_of_neg (by simp [hca]),
      List.dropWhile_cons_of_neg (by simp [hca])]
    simp only [List.append_nil]
    rw [if_neg (by simpa [List.isEmpty_iff] using h1)]
    rw [if_neg (by simp)]
    rw [← hic, parseSignedInt_intChars]
    rfl

theorem joinSpace_cons (t : List Char) (rest : List (List Char)) :
    joinSpace (t :: rest) = t ++ (rest.map (fun w => ' ' :: w)).flatten := rfl

theorem wordsCh_joinSpace :
    ∀ ws : List (List Char),
    (∀ w ∈ ws, w ≠ [] ∧ ∀ c ∈ w, c.isWhitespace = false) →
    wordsCh (joinSpace ws) = ws := by
  intro ws
  induction ws with
  | nil => intro _; rfl
  | cons w rest ih =>
    intro h
    rcases h w (by simp) with ⟨hne, hnws⟩
    rcases w with _ | ⟨c, w'⟩
    · exact absurd rfl hne
    · rw [joinSpace_cons, List.cons_append,
        wordsCh_cons_nws _ (hnws c (by simp))]
      have hw' : ∀ x ∈ w', (fun x => !x.isWhitespace) x = true := by
        intro x hx
        simp [hnws x (by simp [hx])]
      rcases rest with _ | ⟨v, vs⟩
      · simp only [List.map_nil, List.flatten_nil, List.append_nil]
        rw [List.takeWhile_eq_self_iff.mpr hw',
          List.dropWhile_eq_nil_iff.mpr hw']
        rfl
      · simp only [List.map_cons, List.flatten_cons]
        rw [show w' ++ ((' ' :: v) ++ (vs.map (fun w => ' ' :: w)).flatten) =
          w' ++ (' ' :: (v ++ (vs.map (fun w => ' ' :: w)).flatten)) by simp]
        rw [takeWhile_append_all hw', dropWhile_append_all hw',
          List.takeWhile_cons_of_neg (by simp),
          List.dropWhile_cons_of_neg (by simp)]
        rw [List.append_nil, wordsCh_cons_ws _ (by rfl)]
        rw [← joinSpace_cons v vs]
        rw [ih (fun x hx => h x (by simp [hx]))]

theorem forall₂_mem_right {α β : Type} {R : α → β → Prop} :
    ∀ {l₁ : List α} {l₂ : List β}, List.Forall₂ R l₁ l₂ →
      ∀ b ∈ l₂, ∃ a ∈ l₁, R a b := by
  intro l₁ l₂ h
  induction h with
  | nil => simp
  | cons hab hrest ih =>
    intro b hb
    rcases List.mem_cons.mp hb with hb | hb
    · exact ⟨_, by simp, hb ▸ hab⟩
    · rcases ih b hb with ⟨a, ha, hr⟩
      exact ⟨a, by simp [ha], hr⟩

theorem tokensOf_names {u : String} {ts : List (String × Int)}
    (h : tokensOf u = some ts) :
    ∀ p ∈ ts, p.1.data ≠ [] ∧ ∀ c ∈ p.1.data, c.isAlpha = true := by
  intro p hp
  have hf := (mapM_option_forall₂ matchToken (wordsCh u.data) ts).mp h
  rcases forall₂_mem_right hf p hp with ⟨w, _, hw⟩
  rcases p with ⟨name, e⟩
  rcases matchToken_some hw with ⟨_, hne, hall⟩
  exact ⟨hne, hall⟩

theorem renderTok_ne_nil {name : String} (e : Int) (h : name.data ≠ []) :
    renderTok name e ≠ [] := by
  rw [renderTok]
  intro hc
  rcases List.append_eq_nil.mp hc with ⟨h1, _⟩
  exact h h1

theorem renderTok_not_ws {name : String} (e : Int)
    (h : ∀ c ∈ name.data, c.isAlpha = true) :
    ∀ c ∈ renderTok name e, c.isWhitespace = false := by
  intro c hc
  rw [renderTok] at hc
  rcases List.mem_append.mp hc with hc | hc
  · exact alpha_not_ws (h c hc)
  · split at hc
    · simp at hc
    · exact intChars_not_ws e c hc

/-- Applying `invert_unit` to a fully tokenizable expression succeeds and
negates every token exponent. -/
theorem invert_unit_tokens (u : String) (ts : List (String × Int))
    (h : tokensOf u = some ts) :
    ∃ v : String, invert_unit u = .ok v ∧
      tokensOf v = some (ts.map (fun p => (p.1, -p.2))) := by
  have hf := (mapM_option_forall₂ matchToken (wordsCh u.data) ts).mp h
  have hnames := tokensOf_names h
  have hinv : List.Forall₂ (fun w c => invertTok w = .ok c) (wordsCh u.data)
      (ts.map (fun p => renderTok p.1 (-p.2))) := by
    rw [List.forall₂_map_right_iff]
    refine hf.imp ?_
    intro w p hwp
    rcases p with ⟨name, e⟩
    rw [invertTok, hwp]
    rfl
  have hmapm := (mapM_except_forall₂ invertTok (wordsCh u.data)
    (ts.map (fun p => renderTok p.1 (-p.2)))).mpr hinv
  refine ⟨⟨joinSpace (ts.map (fun p => renderTok p.1 (-p.2)))⟩, ?_, ?_⟩
  · rw [invert_unit, hmapm]
    rfl
  · have hwords : wordsCh (joinSpace (ts.map (fun p => renderTok p.1 (-p.2)))) =
        ts.map (fun p => renderTok p.1 (-p.2)) := by
      apply wordsCh_joinSpace
      intro w hw
      rcases List.mem_map.mp hw with ⟨p, hp, hpw⟩
      rcases hnames p hp with ⟨hne, hall⟩
      exact ⟨hpw ▸ renderTok_ne_nil _ hne, hpw ▸ renderTok_not_ws _ hall⟩
    rw [tokensOf]
    show (wordsCh (joinSpace (ts.map (fun p => renderTok p.1 (-p.2))))).mapM
      matchToken = _
    rw [hwords]
    apply (mapM_option_forall₂ matchToken _ _).mpr
    rw [List.forall₂_map_right_iff, List.forall₂_map_left_iff,
      List.forall₂_same]
    intro p hp
    rcases hnames p hp with ⟨hne, hall⟩
    exact matchToken_renderTok p.1 (-p.2) hne hall

theorem valid_eq_true_iff (a b : String) :
    valid a b = true ↔ ∃ ca cb, parse_unit a = .ok ca ∧ parse_unit b = .ok cb ∧
      ca.dims = cb.dims := by
  rcases ha : parse_unit a with ea | ca <;> rcases hb : parse_unit b with eb | cb <;>
    simp [valid, ha, hb]

theorem conv_of_parses {a b : String} {ca cb : CanonicalUnit}
    (ha : parse_unit a = .ok ca) (hb : parse_unit b = .ok cb)
    (hd : ca.dims = cb.dims) (x : ℚ) :
    conv x a b = .ok (x * (ca.scale / cb.scale)) := by
  rw [conv, ha]
  rw [bind_ok]
  rw [hb]
  rw [bind_ok]
  simp [hd]

theorem convV_of_parses {a b : String} {ca cb : CanonicalUnit}
    (ha : parse_unit a = .ok ca) (hb : parse_unit b = .ok cb)
    (hd : ca.dims = cb.dims) (v : Value) :
    convV v a b = .ok (v.scaleBy (ca.scale / cb.scale)) := by
  rw [convV, ha]
  rw [bind_ok]
  rw [hb]
  rw [bind_ok]
  simp [hd]

theorem convV_ok_of_valid {a b : String} (h : valid a b = true) (v : Value) :
    ∃ k : ℚ, convV v b a = .ok (v.scaleBy k) := by
  rcases (valid_eq_true_iff a b).mp h with ⟨ca, cb, ha, hb, hd⟩
  exact ⟨cb.scale / ca.scale, convV_of_parses hb ha hd.symm v⟩

theorem dbScale_kg : dbScale "kg" = 1 := rfl

theorem dbScale_m : dbScale "m" = 1 := rfl

theorem dbScale_s : dbScale "s" = 1 := rfl

theorem dbScale_mm : dbScale "mm" = 1/1000 := rfl

theorem dbScale_cm : dbScale "cm" = 1/100 := rfl

theorem dbScale_km : dbScale "km" = 1000 := rfl

theorem parse_m : parse_unit "m" = .ok ⟨1, ⟨0, 1, 0⟩⟩ := by
  rw [parse_unit_eq_of_tokens "m" [("m", 1)] (by decide) (by decide)]
  refine congrArg Except.ok ?_
  have h1 : tsScale [("m", 1)] = 1 := by norm_num [tsScale, dbScale_m]
  have h2 : tsDims [("m", 1)] = ⟨0, 1, 0⟩ := by decide
  rw [h1, h2]

theorem parse_cm : parse_unit "cm" = .ok ⟨1/100, ⟨0, 1, 0⟩⟩ := by
  rw [parse_unit_eq_of_tokens "cm" [("cm", 1)] (by decide) (by decide)]
  refine congrArg Except.ok ?_
  have h1 : tsScale [("cm", 1)] = 1/100 := by norm_num [tsScale, dbScale_cm]
  have h2 : tsDims [("cm", 1)] = ⟨0, 1, 0⟩ := by decide
  rw [h1, h2]

/-! ## Claim theorems -/

/-- C1: the spec requires the Unit Table to map each of `kg`, `g`, `mg`, `t`
to a mass unit (dimension map `{M: 1}`), with `isCompatible("g", "kg")`
true and `convert(1, "g", "kg") ≈ 1e-3`.  The code's dict literal re-binds
the key `"g"` to standard gravity (an acceleration, `{L: 1, T: -2}`,
scale 9.80665), since a Python dict literal keeps the last duplicate
occurrence.  Hence `kg`, `mg`, `t` are mass units but `"g"` is not:
`valid "g" "kg"` is `false` and `conv 1 "g" "kg"` raises
`IncompatibleUnits` — contradicting both the spec and the repository's own
test `conv(1000, "g", "kg") == 1.0`. -/
theorem C1_g_overridden_to_gravity :
    UNIT_DB "kg" = some ⟨1, ⟨1, 0, 0⟩⟩ ∧
    UNIT_DB "mg" = some ⟨1/1000000, ⟨1, 0, 0⟩⟩ ∧
    UNIT_DB "t" = some ⟨1000, ⟨1, 0, 0⟩⟩ ∧
    UNIT_DB "g" = some ⟨980665/100000, ⟨0, 1, -2⟩⟩ ∧
    valid "g" "kg" = false ∧
    conv 1 "g" "kg" = .error .incompatibleUnits :=
  ⟨rfl, rfl, rfl, rfl, by decide, by decide⟩

/-- C3: the claim (and the spec) say `isCompatible` is total over all
pairs of strings and never raises.  The code is not total: for the input
`"km103"` — a grammatical token with the known symbol `km` and exponent
103 — CPython's `parse_unit` computes `1000.0 ** 103` in floating point
(`core.py:49`); the exact value `1000^103 = 10^309` exceeds the largest
finite double `2^1024 - 2^971 ≈ 1.7977e308`, so float power raises
`OverflowError`.  `OverflowError` is not a `ValueError`, so the
`except ValueError` in `valid` (`core.py:83`) does not catch it and
`isCompatible("km103", "m")` raises instead of returning `false`.  This
theorem evaluates the model at the failing input: the token parses, `km`
is in the table, and the exact scale fold exceeds the double bound — in
the exact-rational model, which cannot overflow, the parse succeeds with
the oversized scale `1000^103`. -/
theorem C3_isCompatible_not_total :
    tokensOf "km103" = some [("km", 103)] ∧
    UNIT_DB "km" = some ⟨1000, ⟨0, 1, 0⟩⟩ ∧
    powOverflows "km" 103 = true ∧
    parse_unit "km103" = .ok ⟨(1000 : ℚ) ^ (103 : Int), ⟨0, 103, 0⟩⟩ ∧
    maxDouble < (1000 : ℚ) ^ (103 : Int) := by
  have hlt : maxDouble < (1000 : ℚ) ^ (103 : Int) := by
    rw [show ((103 : Int)) = (((103 : Nat)) : Int) from rfl, zpow_natCast]
    norm_num [maxDouble]
  have habs : |(1000 : ℚ) ^ (103 : Int)| = (1000 : ℚ) ^ (103 : Int) :=
    abs_of_pos (by positivity)
  have hparse : parse_unit "km103" =
      .ok ⟨(1000 : ℚ) ^ (103 : Int), ⟨0, 103, 0⟩⟩ := by
    rw [parse_unit_eq_of_tokens "km103" [("km", 103)] (by decide) (by decide)]
    refine congrArg Except.ok ?_
    have h1 : tsScale [("km", 103)] = (1000 : ℚ) ^ (103 : Int) := by
      simp [tsScale, dbScale_km]
    have h2 : tsDims [("km", 103)] = ⟨0, 103, 0⟩ := by decide
    rw [h1, h2]
  refine ⟨by decide, rfl, ?_, hparse, hlt⟩
  simp only [powOverflows, dbScale_km, habs, decide_eq_true_eq]
  exact hlt

/-- C4: a successful parse is exactly the left-to-right fold of the claim —
the scale is `Π def[sym].scale ^ exponent` and each dimension exponent is
`Σ def[sym].dims[d] * exponent` over the tokens (zero dimension exponents
being dropped is intrinsic to the `Dims` triple representation); and
concretely `convert(1, "kg m s-2", "kg m2 s-2 mm-1")` succeeds with exactly
1/1000 (the `L` exponents 2 and -1 combine to 1 on both sides). -/
theorem C4_parse_fold_and_conv :
    (∀ (u : String) (ts : List (String × Int)), tokensOf u = some ts →
        (∀ p ∈ ts, (UNIT_DB p.1).isSome) →
        parse_unit u = .ok ⟨tsScale ts, tsDims ts⟩) ∧
    conv 1 "kg m s-2" "kg m2 s-2 mm-1" = .ok (1/1000) := by
  refine ⟨parse_unit_eq_of_tokens, ?_⟩
  have h1 := parse_unit_eq_of_tokens "kg m s-2" [("kg", 1), ("m", 1), ("s", -2)]
    (by decide) (by decide)
  have h2 := parse_unit_eq_of_tokens "kg m2 s-2 mm-1"
    [("kg", 1), ("m", 2), ("s", -2), ("mm", -1)] (by decide) (by decide)
  have e1 : tsScale [("kg", 1), ("m", 1), ("s", -2)] = 1 := by
    norm_num [tsScale, dbScale_kg, dbScale_m, dbScale_s]
  have e2 : tsScale [("kg", 1), ("m", 2), ("s", -2), ("mm", -1)] = 1000 := by
    norm_num [tsScale, dbScale_kg, dbScale_m, dbScale_s, dbScale_mm]
  have d1 : tsDims [("kg", 1), ("m", 1), ("s", -2)] = ⟨1, 1, -2⟩ := by decide
  have d2 : tsDims [("kg", 1), ("m", 2), ("s", -2), ("mm", -1)] = ⟨1, 1, -2⟩ := by
    decide
  rw [conv, h1, e1, d1]
  rw [bind_ok]
  rw [h2, e2, d2]
  rw [bind_ok]
  simp

/-- Witness for C4: the fold applied at the concrete expression
`"kg m2 s-2 mm-1"`. -/
theorem C4_witness :
    parse_unit "kg m2 s-2 mm-1" =
      .ok ⟨tsScale [("kg", 1), ("m", 2), ("s", -2), ("mm", -1)],
        tsDims [("kg", 1), ("m", 2), ("s", -2), ("mm", -1)]⟩ :=
  C4_parse_fold_and_conv.1 "kg m2 s-2 mm-1"
    [("kg", 1), ("m", 2), ("s", -2), ("mm", -1)] (by decide) (by decide)

theorem broadcastOp_arr_some {f : ℚ → ℚ → ℚ} {s1 s2 : List Nat} (s : List Nat)
    (h : broadcastShape s1 s2 = some s) (d1 d2 : List ℚ) :
    broadcastOp f (.arr s1 d1) (.arr s2 d2) =
      .ok (.arr s ((allIdx s).map (fun idx =>
        f (readAt s1 d1 s.length idx) (readAt s2 d2 s.length idx)))) := by
  simp only [broadcastOp]
  rw [h]

theorem broadcastOp_arr_none {f : ℚ → ℚ → ℚ} {s1 s2 : List Nat}
    (h : broadcastShape s1 s2 = none) (d1 d2 : List ℚ) :
    broadcastOp f (.arr s1 d1) (.arr s2 d2) = .error .shapeMismatch := by
  simp only [broadcastOp]
  rw [h]

theorem map_eq_ok {ε α β : Type} {x : Except ε α} {f : α → β} {b : β}
    (h : x.map f = .ok b) : ∃ a, x = .ok a ∧ b = f a := by
  cases x with
  | error e => rw [map_error] at h; exact absurd h (by simp)
  | ok a =>
    rw [map_ok] at h
    exact ⟨a, rfl, by injection h with h; exact h.symm⟩

/-- `Quantity.__mul__` with a Quantity operand, as one equation. -/
theorem mulQ_eq (p q : Quantity) :
    Quantity.mulQ p q = (broadcastOp (fun a b => a * b) p.value q.value).map
      (fun v => ⟨v, pyStrip (p.unit ++ " " ++ q.unit)⟩) := by
  rw [Quantity.mulQ]
  rcases hb : broadcastOp (fun a b => a * b) p.value q.value with e | r
  · rw [bind_error, map_error]
  · rw [bind_ok, map_ok]

/-- `Quantity.__truediv__` with a Quantity operand whose unit inverts, as
one equation. -/
theorem divQ_eq (p q : Quantity) (inv : String)
    (hinv : invert_unit q.unit = .ok inv) :
    Quantity.divQ p q = (broadcastOp (fun a b => a / b) p.value q.value).map
      (fun v => ⟨v, pyStrip (p.unit ++ " " ++ inv)⟩) := by
  rw [Quantity.divQ]
  rcases hb : broadcastOp (fun a b => a / b) p.value q.value with e | r
  · rw [bind_error, map_error]
  · rw [bind_ok, hinv, bind_ok, map_ok]

/-- C2: `__add__` fails with `IncompatibleUnits` exactly when the units are
not compatible; otherwise the right value is converted into the left unit
and the two are combined element-wise under numpy broadcasting, the result
carrying the left operand's unit string unchanged.  The spec's concrete
case `[1,2,3] m + [100,200,300] cm = [2,4,6] m` holds exactly. -/
theorem C2_add_converts_keeps_left_unit :
    (∀ p q : Quantity, valid p.unit q.unit = false →
        Quantity.add p q = .error .incompatibleUnits) ∧
    (∀ (p q : Quantity) (cv : Value), valid p.unit q.unit = true →
        convV q.value q.unit p.unit = .ok cv →
        Quantity.add p q = (broadcastOp (fun a b => a + b) p.value cv).map
          (fun v => ⟨v, p.unit⟩)) ∧
    Quantity.add ⟨.arr [3] [1, 2, 3], "m"⟩ ⟨.arr [3] [100, 200, 300], "cm"⟩ =
      .ok ⟨.arr [3] [2, 4, 6], "m"⟩ := by
  refine ⟨?_, ?_, ?_⟩
  · intro p q h
    rw [Quantity.add, if_neg (by simp [h])]
  · intro p q cv hv hc
    rw [Quantity.add, if_pos hv, hc, bind_ok]
    rcases hb : broadcastOp (fun a b => a + b) p.value cv with e | r
    · rw [bind_error, map_error]
    · rw [bind_ok, map_ok]
  · have hconv : convV (.arr [3] ([100, 200, 300] : List ℚ)) "cm" "m" =
        .ok (.arr [3] [1, 2, 3]) := by
      rw [convV_of_parses parse_cm parse_m rfl]
      norm_num [Value.scaleBy]
    simp only [Quantity.add]
    rw [if_pos (by decide : valid "m" "cm" = true), hconv, bind_ok]
    have hb : broadcastOp (fun a b => a + b) (.arr [3] ([1, 2, 3] : List ℚ))
        (.arr [3] ([1, 2, 3] : List ℚ)) = .ok (.arr [3] [2, 4, 6]) := by
      rw [broadcastOp_arr_some [3] (by decide)]
      rw [(by decide : allIdx [3] = [[0], [1], [2]])]
      norm_num [readAt, flatIndex]
    rw [hb, bind_ok]

/-- Witness for C2: both hypothesis-bearing conjuncts applied at concrete
quantities. -/
theorem C2_witness :
    Quantity.add ⟨.scalar 1, "kg"⟩ ⟨.scalar 1, "m"⟩ = .error .incompatibleUnits ∧
    Quantity.add ⟨.scalar 1, "m"⟩ ⟨.scalar 2, "cm"⟩ =
      (broadcastOp (fun a b => a + b) (.scalar 1)
        ((Value.scalar 2).scaleBy (1/100 / 1))).map (fun v => ⟨v, "m"⟩) :=
  ⟨C2_add_converts_keeps_left_unit.1 _ _ (by decide),
   C2_add_converts_keeps_left_unit.2.1 _ _ _ (by decide)
     (convV_of_parses parse_cm parse_m rfl _)⟩

/-- C5 counterexample: the claim says the result unit of division is always
`p.unit + " " + invert(q.unit)`; with `p.unit = ""` the code's `.strip()`
removes the leading space, so the unit is `"m-1"`, not `" m-1"`. -/
theorem C5_counterexample :
    Quantity.divQ ⟨.scalar 10, ""⟩ ⟨.scalar 2, "m"⟩ = .ok ⟨.scalar 5, "m-1"⟩ ∧
    ("m-1" : String) ≠ "" ++ " " ++ "m-1" := by
  constructor
  · simp only [Quantity.divQ, broadcastOp]
    rw [bind_ok, (by decide : invert_unit "m" = .ok "m-1"), bind_ok]
    rw [(by decide : pyStrip ("" ++ " " ++ "m-1") = "m-1")]
    norm_num
  · decide

/-- C5 (amended): for every pair of Quantities whose right unit inverts,
division is element-wise division of the values under broadcasting, and
the result unit is `strip(p.unit + " " + invert(q.unit))` — equal to the
unstripped concatenation whenever that concatenation carries no leading or
trailing whitespace; no simplification or cancellation is performed.  The
concrete case `Quantity(10, "N") / Quantity(2, "m") = 5 "N m-1"` holds. -/
theorem C5_div_value_and_unit :
    (∀ (p q : Quantity) (inv : String), invert_unit q.unit = .ok inv →
        Quantity.divQ p q = (broadcastOp (fun a b => a / b) p.value q.value).map
          (fun v => ⟨v, pyStrip (p.unit ++ " " ++ inv)⟩)) ∧
    (∀ (p q : Quantity) (inv : String) (r : Quantity),
        invert_unit q.unit = .ok inv →
        pyStrip (p.unit ++ " " ++ inv) = p.unit ++ " " ++ inv →
        Quantity.divQ p q = .ok r → r.unit = p.unit ++ " " ++ inv) ∧
    Quantity.divQ ⟨.scalar 10, "N"⟩ ⟨.scalar 2, "m"⟩ =
      .ok ⟨.scalar 5, "N m-1"⟩ := by
  refine ⟨divQ_eq, ?_, ?_⟩
  · intro p q inv r hinv hstrip hdiv
    rw [divQ_eq p q inv hinv] at hdiv
    rcases map_eq_ok hdiv with ⟨v, _, hr⟩
    rw [hr]
    exact hstrip
  · simp only [Quantity.divQ, broadcastOp]
    rw [bind_ok, (by decide : invert_unit "m" = .ok "m-1"), bind_ok]
    rw [(by decide : pyStrip ("N" ++ " " ++ "m-1") = "N m-1")]
    norm_num

/-- Witness for C5: the division equation applied at
`Quantity(10, "N") / Quantity(2, "m")`. -/
theorem C5_witness :
    Quantity.divQ ⟨.scalar 10, "N"⟩ ⟨.scalar 2, "m"⟩ =
      (broadcastOp (fun a b => a / b) (.scalar 10) (.scalar 2)).map
        (fun v => ⟨v, pyStrip ("N" ++ " " ++ "m-1")⟩) :=
  C5_div_value_and_unit.1 ⟨.scalar 10, "N"⟩ ⟨.scalar 2, "m"⟩ "m-1" (by decide)

/-- C6: for every unit expression the parser accepts, double inversion
succeeds, is token-for-token the identity — the `(symbol, exponent)` token
lists of `invert(invert(u))` and `u` coincide, which is equality of the
texts modulo omission of exponent 1 (and of an explicit `+` sign) — and
`isCompatible(u, invert(invert(u)))` holds. -/
theorem C6_invert_involution (u : String) (c : CanonicalUnit)
    (h : parse_unit u = .ok c) :
    ∃ v w : String, invert_unit u = .ok v ∧ invert_unit v = .ok w ∧
      tokensOf w = tokensOf u ∧ valid u w = true := by
  rcases parse_unit_tokens_exist u c h with ⟨ts, hts, hk⟩
  rcases invert_unit_tokens u ts hts with ⟨v, hv, htv⟩
  rcases invert_unit_tokens v _ htv with ⟨w, hw, htw⟩
  rw [List.map_map] at htw
  have hcomp : ((fun p : String × Int => (p.1, -p.2)) ∘
      (fun p : String × Int => (p.1, -p.2))) = id := by
    funext p
    simp
  rw [hcomp, List.map_id] at htw
  refine ⟨v, w, hv, hw, by rw [htw, hts], ?_⟩
  have hpu := parse_unit_eq_of_tokens u ts hts hk
  have hpw := parse_unit_eq_of_tokens w ts htw hk
  simp [valid, hpu, hpw]

/-- Witness for C6: double inversion at `"kg m2 s-2"`. -/
theorem C6_witness :
    ∃ v w : String, invert_unit "kg m2 s-2" = .ok v ∧ invert_unit v = .ok w ∧
      tokensOf w = tokensOf "kg m2 s-2" ∧ valid "kg m2 s-2" w = true :=
  C6_invert_involution "kg m2 s-2"
    ⟨tsScale [("kg", 1), ("m", 2), ("s", -2)],
      tsDims [("kg", 1), ("m", 2), ("s", -2)]⟩
    (parse_unit_eq_of_tokens "kg m2 s-2" [("kg", 1), ("m", 2), ("s", -2)]
      (by decide) (by decide))

/-- C8: two array operands with compatible units whose shapes cannot
broadcast make `__add__`/`__sub__` fail with `ShapeMismatch`, an error kind
distinct from `IncompatibleUnits`; the failure is the returned result
(always surfaced). -/
theorem C8_shape_mismatch_surfaced (u1 u2 : String) (s1 s2 : List Nat)
    (d1 d2 : List ℚ) (hval : valid u1 u2 = true)
    (hbs : broadcastShape s1 s2 = none) :
    Quantity.add ⟨.arr s1 d1, u1⟩ ⟨.arr s2 d2, u2⟩ = .error .shapeMismatch ∧
    Quantity.sub ⟨.arr s1 d1, u1⟩ ⟨.arr s2 d2, u2⟩ = .error .shapeMismatch ∧
    UnityError.shapeMismatch ≠ UnityError.incompatibleUnits := by
  rcases convV_ok_of_valid hval (.arr s2 d2) with ⟨k, hk⟩
  refine ⟨?_, ?_, by decide⟩
  · rw [Quantity.add, if_pos hval, hk, bind_ok]
    simp only [Value.scaleBy]
    rw [broadcastOp_arr_none hbs, bind_error]
  · rw [Quantity.sub, if_pos hval, hk, bind_ok]
    simp only [Value.scaleBy]
    rw [broadcastOp_arr_none hbs, bind_error]

/-- Witness for C8: same unit `m`, 1-D shapes 2 and 3. -/
theorem C8_witness :
    Quantity.add ⟨.arr [2] [1, 2], "m"⟩ ⟨.arr [3] [1, 2, 3], "m"⟩ =
        .error .shapeMismatch ∧
    Quantity.sub ⟨.arr [2] [1, 2], "m"⟩ ⟨.arr [3] [1, 2, 3], "m"⟩ =
        .error .shapeMismatch ∧
    UnityError.shapeMismatch ≠ UnityError.incompatibleUnits :=
  C8_shape_mismatch_surfaced "m" "m" [2] [3] [1, 2] [1, 2, 3]
    (by decide) (by decide)

/-- C7: the magnitude-tiered format selection, stated as the spec's table
(whose rows apply in order, so each row below carries the negation of the
rows above where they overlap), the per-element independence of the
selection, and the two concrete branch choices.  `\x7b`/`\x7d` denote the
literal braces of the Python format strings. -/
theorem C7_format_selection :
    (∀ v : ℚ, |v| = 0 → get_format_string "" v = "\x7b:.0f\x7d") ∧
    (∀ v : ℚ, |v| ≠ 0 → (|v| < 1/10 ∨ |v| > 99999/10) →
        get_format_string "" v = "\x7b:.2E\x7d") ∧
    (∀ v : ℚ, 1/10 ≤ |v| → |v| < 10 → get_format_string "" v = "\x7b:.3f\x7d") ∧
    (∀ v : ℚ, 10 ≤ |v| → |v| < 100 → get_format_string "" v = "\x7b:.2f\x7d") ∧
    (∀ v : ℚ, 100 ≤ |v| → |v| < 1000 → get_format_string "" v = "\x7b:.1f\x7d") ∧
    (∀ v : ℚ, 1000 ≤ |v| → |v| ≤ 99999/10 → get_format_string "" v = "\x7b:.0f\x7d") ∧
    (∀ (sh : List Nat) (d : List ℚ) (u nf : String),
        formatStrings ⟨.arr sh d, u⟩ nf = d.map (get_format_string nf)) ∧
    (∀ (x : ℚ) (u nf : String),
        formatStrings ⟨.scalar x, u⟩ nf = [get_format_string nf x]) ∧
    get_format_string "" 10000 = "\x7b:.2E\x7d" ∧
    get_format_string "" 1000 = "\x7b:.0f\x7d" := by
  refine ⟨?_, ?_, ?_, ?_, ?_, ?_, fun sh d u nf => rfl, fun x u nf => rfl, ?_, ?_⟩
  · intro v h
    simp only [get_format_string]
    rw [if_neg (fun hne : ("" : String) ≠ "" => hne rfl), if_pos h]
  · intro v h0 h
    simp only [get_format_string]
    rw [if_neg (fun hne : ("" : String) ≠ "" => hne rfl), if_neg h0, if_pos h]
  · intro v h1 h2
    simp only [get_format_string]
    rw [if_neg (fun hne : ("" : String) ≠ "" => hne rfl),
      if_neg (by intro h; rw [h] at h1; norm_num at h1),
      if_neg (by push_neg; constructor <;> linarith), if_pos h2]
  · intro v h1 h2
    simp only [get_format_string]
    rw [if_neg (fun hne : ("" : String) ≠ "" => hne rfl),
      if_neg (by intro h; rw [h] at h1; norm_num at h1),
      if_neg (by push_neg; constructor <;> linarith),
      if_neg (by linarith), if_pos h2]
  · intro v h1 h2
    simp only [get_format_string]
    rw [if_neg (fun hne : ("" : String) ≠ "" => hne rfl),
      if_neg (by intro h; rw [h] at h1; norm_num at h1),
      if_neg (by push_neg; constructor <;> linarith),
      if_neg (by linarith), if_neg (by linarith), if_pos h2]
  · intro v h1 h2
    simp only [get_format_string]
    rw [if_neg (fun hne : ("" : String) ≠ "" => hne rfl),
      if_neg (by intro h; rw [h] at h1; norm_num at h1),
      if_neg (by push_neg; constructor <;> linarith),
      if_neg (by linarith), if_neg (by linarith), if_neg (by linarith)]
  · norm_num [get_format_string]
  · norm_num [get_format_string]

/-- Witness for C7: the 3-fractional-digit row applied at 5, and the
scientific row applied at 1/100. -/
theorem C7_witness :
    get_format_string "" 5 = "\x7b:.3f\x7d" ∧
    get_format_string "" (1/100) = "\x7b:.2E\x7d" :=
  ⟨C7_format_selection.2.2.1 5 (by norm_num) (by norm_num),
   C7_format_selection.2.1 (1/100) (by norm_num)
     (Or.inl (by rw [abs_of_pos (by norm_num : (0:ℚ) < 1/100)]; norm_num))⟩

theorem dropWhile_append_of_ne_nil {α : Type} {p : α → Bool} :
    ∀ {l : List α}, l.dropWhile p ≠ [] →
      ∀ r, (l ++ r).dropWhile p = l.dropWhile p ++ r := by
  intro l
  induction l with
  | nil => intro h; exact absurd rfl h
  | cons c cs ih =>
    intro h r
    by_cases hp : p c = true
    · rw [List.dropWhile_cons_of_pos hp] at h
      rw [List.cons_append, List.dropWhile_cons_of_pos hp,
        List.dropWhile_cons_of_pos hp]
      exact ih h r
    · rw [List.cons_append, List.dropWhile_cons_of_neg hp,
        List.dropWhile_cons_of_neg hp, List.cons_append]

theorem stripCh_space_cons (l : List Char) : stripCh (' ' :: l) = stripCh l := by
  rw [stripCh, stripCh, List.dropWhile_cons_of_pos (by decide)]

theorem stripCh_space_append (l : List Char) : stripCh (l ++ [' ']) = stripCh l := by
  by_cases h : l.dropWhile Char.isWhitespace = []
  · have hall := List.dropWhile_eq_nil_iff.mp h
    have h2 : (l ++ [' ']).dropWhile Char.isWhitespace = [] := by
      rw [List.dropWhile_eq_nil_iff]
      intro c hc
      rcases List.mem_append.mp hc with hc | hc
      · exact hall c hc
      · simp only [List.mem_singleton] at hc
        subst hc
        rfl
    rw [stripCh, stripCh, h, h2]
  · rw [stripCh, stripCh, dropWhile_append_of_ne_nil h, List.reverse_append]
    show ((' ' :: (l.dropWhile Char.isWhitespace).reverse).dropWhile
      Char.isWhitespace).reverse = _
    rw [List.dropWhile_cons_of_pos (by decide)]

theorem pyStrip_empty_left (s : String) : pyStrip ("" ++ " " ++ s) = pyStrip s := by
  rw [pyStrip, pyStrip]
  have hd : ("" ++ " " ++ s).data = ' ' :: s.data := by
    rw [String.data_append]
    rfl
  rw [hd, stripCh_space_cons]

theorem pyStrip_space_right (s : String) : pyStrip (s ++ " " ++ "") = pyStrip s := by
  rw [pyStrip, pyStrip]
  have hd : (s ++ " " ++ "").data = s.data ++ [' '] := by
    rw [String.data_append, String.data_append]
    simp
  rw [hd, stripCh_space_append]

/-- C10 counterexample: the claim says `(q div p).unit` is exactly `q.unit`
when `p.unit = ""`; for `q.unit = " m"` the `.strip()` also removes
`q.unit`'s own leading space, giving `"m" ≠ " m"`. -/
theorem C10_counterexample :
    Quantity.divQ ⟨.scalar 2, " m"⟩ ⟨.scalar 1, ""⟩ = .ok ⟨.scalar 2, "m"⟩ ∧
    ("m" : String) ≠ " m" := by
  constructor
  · simp only [Quantity.divQ, broadcastOp]
    rw [bind_ok, (by decide : invert_unit "" = .ok ""), bind_ok]
    rw [(by decide : pyStrip (" m" ++ " " ++ "") = "m")]
    norm_num
  · decide

/-- C10 (amended): with a dimensionless (empty-unit) operand `p`, the unit
of `p * q`, `q * p` and `q / p` is `q.unit` stripped of leading and
trailing whitespace (`invert("") = ""`), hence exactly `q.unit` whenever
`q.unit` carries no leading or trailing whitespace. -/
theorem C10_empty_unit_strips (p q : Quantity) (h : p.unit = "") :
    invert_unit "" = .ok "" ∧
    (∀ r, Quantity.mulQ p q = .ok r → r.unit = pyStrip q.unit) ∧
    (∀ r, Quantity.mulQ q p = .ok r → r.unit = pyStrip q.unit) ∧
    (∀ r, Quantity.divQ q p = .ok r → r.unit = pyStrip q.unit) ∧
    (pyStrip q.unit = q.unit →
      ∀ r, Quantity.mulQ p q = .ok r ∨ Quantity.mulQ q p = .ok r ∨
        Quantity.divQ q p = .ok r → r.unit = q.unit) := by
  have hmul1 : ∀ r, Quantity.mulQ p q = .ok r → r.unit = pyStrip q.unit := by
    intro r hr
    rw [mulQ_eq, h] at hr
    rcases map_eq_ok hr with ⟨v, _, hv⟩
    rw [hv]
    show pyStrip ("" ++ " " ++ q.unit) = pyStrip q.unit
    exact pyStrip_empty_left q.unit
  have hmul2 : ∀ r, Quantity.mulQ q p = .ok r → r.unit = pyStrip q.unit := by
    intro r hr
    rw [mulQ_eq, h] at hr
    rcases map_eq_ok hr with ⟨v, _, hv⟩
    rw [hv]
    show pyStrip (q.unit ++ " " ++ "") = pyStrip q.unit
    exact pyStrip_space_right q.unit
  have hdiv : ∀ r, Quantity.divQ q p = .ok r → r.unit = pyStrip q.unit := by
    intro r hr
    rw [divQ_eq q p "" (by rw [h]; decide)] at hr
    rcases map_eq_ok hr with ⟨v, _, hv⟩
    rw [hv]
    show pyStrip (q.unit ++ " " ++ "") = pyStrip q.unit
    exact pyStrip_space_right q.unit
  refine ⟨by decide, hmul1, hmul2, hdiv, ?_⟩
  intro hq r hr
  rcases hr with hr | hr | hr
  · rw [hmul1 r hr, hq]
  · rw [hmul2 r hr, hq]
  · rw [hdiv r hr, hq]

/-- Witness for C10: `Quantity(1, "") * Quantity(2, "m")` keeps unit `m`. -/
theorem C10_witness :
    ((⟨Value.scalar 2, "m"⟩ : Quantity)).unit = pyStrip "m" :=
  (C10_empty_unit_strips ⟨.scalar 1, ""⟩ ⟨.scalar 2, "m"⟩ rfl).2.1
    ⟨.scalar 2, "m"⟩
    (by simp only [Quantity.mulQ, broadcastOp]
        rw [bind_ok, (by decide : pyStrip ("" ++ " " ++ "m") = "m")]
        norm_num)

theorem drop_take_one {d : List ℚ} {m : Nat} (h : m < d.length) :
    (d.drop m).take 1 = [d.getD m 0] := by
  rw [List.drop_eq_getElem_cons h]
  rw [List.take_succ_cons, List.take_zero]
  rw [List.getD_eq_getElem d 0 h]

theorem flatten_singleton_map {α β : Type} (g : α → β) (l : List α) :
    (l.map (fun i => [g i])).flatten = l.map g := by
  induction l with
  | nil => rfl
  | cons a l ih => simp [ih]

theorem sliceIdx_some {a? b? : Option Int} {st : Int} (h : st ≠ 0) (L : Nat) :
    sliceIdx a? b? (some st) L = .ok ((List.range (sliceLen (adjustStart a? st L)
      (adjustStop b? st L) st)).map
        (fun k : Nat => adjustStart a? st L + st * (k : Int))) := by
  simp only [sliceIdx, Option.getD_some]
  rw [if_neg h]

theorem adjustStart_nonneg (a? : Option Int) {st : Int} (h : 0 < st) (L : Nat) :
    0 ≤ adjustStart a? st L := by
  rcases a? with _ | i <;> simp only [adjustStart] <;> split_ifs <;> omega

theorem adjustStop_le (b? : Option Int) {st : Int} (h : 0 < st) (L : Nat) :
    adjustStop b? st L ≤ (L : Int) := by
  rcases b? with _ | i <;> simp only [adjustStop] <;> split_ifs <;> omega

theorem sliceIdx_pos_bounds {a? b? : Option Int} {st : Int} (hst : 0 < st)
    (L : Nat) {ids : List Int} (h : sliceIdx a? b? (some st) L = .ok ids) :
    ∀ i ∈ ids, 0 ≤ i ∧ i < (L : Int) := by
  rw [sliceIdx_some (by omega) L] at h
  injection h with h
  intro i hi
  rw [← h] at hi
  rcases List.mem_map.mp hi with ⟨k, hk, hik⟩
  rw [List.mem_range] at hk
  have hA := adjustStart_nonneg a? hst L
  have hB := adjustStop_le b? hst L
  rw [sliceLen, if_pos hst] at hk
  split at hk
  next hAB =>
    have hq : 0 ≤ (adjustStop b? st L - adjustStart a? st L - 1) / st :=
      Int.ediv_nonneg (by omega) (by omega)
    have hle : st * ((adjustStop b? st L - adjustStart a? st L - 1) / st) ≤
        adjustStop b? st L - adjustStart a? st L - 1 := by
      have hmod := Int.ediv_add_emod
        (adjustStop b? st L - adjustStart a? st L - 1) st
      have hm0 := Int.emod_nonneg
        (adjustStop b? st L - adjustStart a? st L - 1) (by omega : st ≠ 0)
      omega
    have hk' : (k : Int) ≤ (adjustStop b? st L - adjustStart a? st L - 1) / st := by
      omega
    have hmul : st * (k : Int) ≤
        st * ((adjustStop b? st L - adjustStart a? st L - 1) / st) :=
      mul_le_mul_of_nonneg_left hk' (by omega)
    have hpos : 0 ≤ st * (k : Int) := mul_nonneg (by omega) (by omega)
    subst hik
    omega
  · omega

theorem sliceIdx_pos_pairwise {a? b? : Option Int} {st : Int} (hst : 0 < st)
    (L : Nat) {ids : List Int} (h : sliceIdx a? b? (some st) L = .ok ids) :
    ids.Pairwise (· < ·) := by
  rw [sliceIdx_some (by omega) L] at h
  injection h with h
  rw [← h]
  refine List.Pairwise.map _ ?_ (List.pairwise_lt_range _)
  intro a b hab
  have : st * (a : Int) < st * (b : Int) := by
    apply (mul_lt_mul_left hst).mpr
    exact_mod_cast hab
  omega

theorem map_getD_sublist (d : List ℚ) (ids : List Int)
    (hmem : ∀ i ∈ ids, 0 ≤ i ∧ i < (d.length : Int))
    (hpw : ids.Pairwise (· < ·)) :
    (ids.map (fun i => d.getD i.toNat 0)).Sublist d := by
  have hbound : ∀ i ∈ ids, i.toNat < d.length := by
    intro i hi
    have := hmem i hi
    omega
  have heq : ids.map (fun i => d.getD i.toNat 0) =
      (ids.pmap (fun i h => (⟨i.toNat, h⟩ : Fin d.length)) hbound).map
        (fun j => d[j]) := by
    rw [List.map_pmap]
    symm
    calc ids.pmap (fun i h => d[(⟨i.toNat, h⟩ : Fin d.length)]) hbound
        = ids.pmap (fun i _ => d.getD i.toNat 0) hbound := by
          apply List.pmap_congr_left
          intro i hi h1 h2
          exact (List.getD_eq_getElem d 0 h1).symm
      _ = ids.map (fun i => d.getD i.toNat 0) := List.pmap_eq_map _ _ _ _
  rw [heq]
  apply List.map_getElem_sublist
  apply (List.pairwise_pmap hbound).mpr
  apply List.Pairwise.imp_of_mem ?_ hpw
  intro a b ha hb hab
  intro h1 h2
  show a.toNat < b.toNat
  have := hmem a ha
  omega

/-- C9 counterexample: a slice whose step is -1 is a legitimate
range-with-step key, but its result lists the selected elements in the
reverse of the source order, so the selection is not even a sublist of the
source. -/
theorem C9_counterexample :
    Quantity.getitem ⟨.arr [3] [10, 20, 30], "m"⟩ (.slice none none (some (-1))) =
      .ok ⟨.arr [3] [30, 20, 10], "m"⟩ ∧
    ¬ ([(30 : ℚ), 20, 10].Sublist [10, 20, 30]) := by
  constructor
  · decide
  · decide

/-- C9 (amended): indexing a scalar Quantity fails with
`UnsupportedOperation` for every key; an in-range (possibly negative)
integer index on a 1-D array Quantity yields the scalar element at the
normalized position with the unit preserved; a slice with positive step
yields exactly the selected positions, in source order (the selected data
is a sublist of the source) — with a negative step the elements come in
reversed source order, as the counterexample shows.  The spec's concrete
case `[10,20,30,40,50][1:4] = [20,30,40]` holds. -/
theorem C9_indexing :
    (∀ (x : ℚ) (u : String) (k : Key),
        Quantity.getitem ⟨.scalar x, u⟩ k = .error .unsupportedOperation) ∧
    (∀ (d : List ℚ) (u : String) (i : Int),
        -(d.length : Int) ≤ i → i < d.length →
        Quantity.getitem ⟨.arr [d.length] d, u⟩ (.pos i) =
          .ok ⟨.scalar (d.getD (if i < 0 then i + d.length else i).toNat 0), u⟩) ∧
    (∀ (d : List ℚ) (u : String) (a b : Option Int) (st : Int)
        (ids : List Int), 0 < st →
        sliceIdx a b (some st) d.length = .ok ids →
        Quantity.getitem ⟨.arr [d.length] d, u⟩ (.slice a b (some st)) =
          .ok ⟨.arr [ids.length] (ids.map (fun i => d.getD i.toNat 0)), u⟩ ∧
        (ids.map (fun i => d.getD i.toNat 0)).Sublist d) ∧
    Quantity.getitem ⟨.arr [5] [10, 20, 30, 40, 50], "m"⟩
        (.slice (some 1) (some 4) none) =
      .ok ⟨.arr [3] [20, 30, 40], "m"⟩ := by
  refine ⟨fun x u k => rfl, ?_, ?_, by decide⟩
  · intro d u i hlo hhi
    have hlt : (if i < 0 then i + (d.length : Int) else i).toNat < d.length := by
      split_ifs <;> omega
    simp only [Quantity.getitem, Value.getitem, List.prod_nil, Nat.mul_one,
      List.isEmpty_nil, if_true]
    rw [if_pos (show (0 : Int) ≤ (if i < 0 then i + (d.length : Int) else i) ∧
        (if i < 0 then i + (d.length : Int) else i) < (d.length : Int) from by
      constructor <;> (split_ifs <;> omega))]
    rw [drop_take_one hlt, map_ok]
    rfl
  · intro d u a b st ids hst hids
    have hmem := sliceIdx_pos_bounds hst d.length hids
    have hpw := sliceIdx_pos_pairwise hst d.length hids
    constructor
    · simp only [Quantity.getitem, Value.getitem, List.prod_nil, Nat.mul_one]
      rw [hids, map_ok, map_ok]
      have hmap : ids.map (fun i => (d.drop i.toNat).take 1) =
          ids.map (fun i => [d.getD i.toNat 0]) := by
        apply List.map_congr_left
        intro i hi
        exact drop_take_one (by have := hmem i hi; omega)
      rw [hmap, flatten_singleton_map]
    · exact map_getD_sublist d ids hmem hpw

/-- Witness for C9: the integer conjunct at `[10,20,30][-1]` and the slice
conjunct at `[10,20,30,40,50][1:4:1]`. -/
theorem C9_witness :
    Quantity.getitem ⟨.arr [3] [10, 20, 30], "m"⟩ (.pos (-1)) =
      .ok ⟨.scalar ([(10 : ℚ), 20, 30].getD
        (if (-1 : Int) < 0 then -1 + ([(10 : ℚ), 20, 30].length : Int)
          else -1).toNat 0), "m"⟩ ∧
    (Quantity.getitem ⟨.arr [5] [10, 20, 30, 40, 50], "m"⟩
        (.slice (some 1) (some 4) (some 1)) =
      .ok ⟨.arr [[(1 : Int), 2, 3].length]
        ([(1 : Int), 2, 3].map (fun i => [(10 : ℚ), 20, 30, 40, 50].getD
          i.toNat 0)), "m"⟩ ∧
      ([(1 : Int), 2, 3].map (fun i => [(10 : ℚ), 20, 30, 40, 50].getD
        i.toNat 0)).Sublist [10, 20, 30, 40, 50]) :=
  ⟨C9_indexing.2.1 [10, 20, 30] "m" (-1) (by decide) (by decide),
   C9_indexing.2.2.1 [10, 20, 30, 40, 50] "m" (some 1) (some 4) 1
     [1, 2, 3] (by decide) (by decide)⟩

end Unity
